import Mathlib

/-!
# sphere_render: the ray integrators and the pixel dispatch of `sphere.go`

A shallow embedding of `integrate_along_ray`, `integrate_hierarchical`,
`computePixel` and the dispatch loop of `main`.

* `float64` is modelled by an arbitrary linear ordered field `K` (exact
  arithmetic); the theorems instantiate `K` with `ℝ` and `math.Exp` with
  `Real.exp`.
* `mgl64.Vec3.Normalize`, `math.Exp`, `objects.Density` and the camera
  transform are library code: they are parameters of the definitions.
* Loops run on `fuel`: a loop that needs more than `fuel` iterations yields
  `none`.
-/

namespace SphereRender

/-- A triple of coordinates, `mgl64.Vec3`. -/
structure Vec3 (K : Type) where
  x : K
  y : K
  z : K

/-- Componentwise difference, `mgl64.Vec3.Sub`. -/
def Vec3.sub {K : Type} [Sub K] (a b : Vec3 K) : Vec3 K :=
  ⟨a.x - b.x, a.y - b.y, a.z - b.z⟩

section Integrators

variable {K : Type} [LinearOrderedField K]

/-- Side of the square image, `const res = 1024`. -/
def res : Nat := 1024

/-- Orbit radius, `const R = 6.0`. -/
def R : K := 6

/-- The density sampled at arc length `s` of the ray: the three coordinate
lines `x := origin[0] + direction[0]*s` ... followed by `density(x, y, z)`. -/
def sample (density : K → K → K → K) (origin direction : Vec3 K) (s : K) : K :=
  density (origin.x + direction.x * s) (origin.y + direction.y * s)
    (origin.z + direction.z * s)

/-- The local variables of `integrate_hierarchical`, with three counters that
are not in the source and do not influence the other fields: `windows` counts
executions of the outer loop body, `samples` counts calls of `density`,
`refined` counts windows in which the boundary-crossing test was true. -/
structure HState (K : Type) where
  right : K
  left : K
  prev_rho : K
  T : K
  windows : Nat
  samples : Nat
  refined : Nat

/-- The inner loop `for left < right { T += density(..) * ds; left += ds }`. -/
def fine_loop (density : K → K → K → K) (origin direction : Vec3 K) (ds : K) :
    Nat → HState K → Option (HState K)
  | 0, st => if st.left < st.right then none else some st
  | fuel + 1, st =>
    if st.left < st.right then
      fine_loop density origin direction ds fuel
        { st with
          T := st.T + sample density origin direction st.left * ds
          left := st.left + ds
          samples := st.samples + 1 }
    else some st

/-- One execution of the body of the outer loop `for right <= smax { .. }`;
`fine` is the fuel of the inner loop. -/
def window_step (density : K → K → K → K) (origin direction : Vec3 K) (DS ds : K)
    (fine : Nat) (st : HState K) : Option (HState K) :=
  let rho := sample density origin direction st.right
  let st1 := { st with samples := st.samples + 1 }
  let body : Option (HState K) :=
    if (rho == 0) != (st1.prev_rho == 0) then
      (fine_loop density origin direction ds fine { st1 with left := st1.left + ds }).map
        fun st2 => { st2 with T := st2.T + rho * ds, refined := st2.refined + 1 }
    else
      some { st1 with T := st1.T + rho * DS }
  body.map fun st3 =>
    { st3 with
      prev_rho := rho
      left := st3.right
      right := st3.right + DS
      windows := st3.windows + 1 }

/-- The outer loop `for right <= smax { .. }` of `integrate_hierarchical`. -/
def hier_loop (density : K → K → K → K) (origin direction : Vec3 K) (DS ds smax : K)
    (fine : Nat) : Nat → HState K → Option (HState K)
  | 0, st => if st.right ≤ smax then none else some st
  | fuel + 1, st =>
    if st.right ≤ smax then
      (window_step density origin direction DS ds fine st).bind
        (hier_loop density origin direction DS ds smax fine fuel)
    else some st

/-- The state of `integrate_hierarchical` when the outer loop is entered. -/
def hier_init (DS smin : K) : HState K :=
  { right := smin + DS, left := smin, prev_rho := 0, T := 0,
    windows := 0, samples := 0, refined := 0 }

/-- The state in which `integrate_hierarchical` leaves its outer loop; every
loop, outer or inner, may run at most `fuel` iterations. -/
def hier_run (normalize : Vec3 K → Vec3 K) (density : K → K → K → K)
    (origin direction : Vec3 K) (DS smin smax : K) (fuel : Nat) : Option (HState K) :=
  hier_loop density origin (normalize direction) DS (DS / 25) smax fuel fuel
    (hier_init DS smin)

/-- The function `integrate_hierarchical` of `sphere.go`. -/
def integrate_hierarchical (exp : K → K) (normalize : Vec3 K → Vec3 K)
    (density : K → K → K → K) (origin direction : Vec3 K) (DS smin smax : K)
    (fuel : Nat) : Option K :=
  (hier_run normalize density origin direction DS smin smax fuel).map
    fun st => exp (-st.T)

/-! ### The window-by-window reference of the hierarchical integrator

These definitions follow the words of the specification (section 4.3), not
the code; they are compared with `integrate_hierarchical` below. -/

/-- Reference, right-edge sample of window `k`: `rho_0 = 0` and
`rho_k = density(p(smin + k*DS))` for `k ≥ 1`. -/
def ref_rho (density : K → K → K → K) (origin direction : Vec3 K) (DS smin : K)
    (k : Nat) : K :=
  if k = 0 then 0 else sample density origin direction (smin + (k : K) * DS)

/-- Reference, the boundary-crossing test of window `k`: "is `rho_k` zero"
differs from "was `rho_(k-1)` zero". -/
def ref_crossing (density : K → K → K → K) (origin direction : Vec3 K) (DS smin : K)
    (k : Nat) : Prop :=
  ¬ (ref_rho density origin direction DS smin k = 0 ↔
      ref_rho density origin direction DS smin (k - 1) = 0)

instance (density : K → K → K → K) (origin direction : Vec3 K) (DS smin : K) (k : Nat) :
    Decidable (ref_crossing density origin direction DS smin k) :=
  inferInstanceAs (Decidable (¬ (_ ↔ _)))

/-- Reference, contribution `c_k` of window `k ≥ 1`: `rho_k * DS` without a
crossing, otherwise `ds` times the right-edge sample plus the 24 interior
fine samples, with `ds = DS / 25`. -/
def ref_contribution (density : K → K → K → K) (origin direction : Vec3 K) (DS smin : K)
    (k : Nat) : K :=
  if ref_crossing density origin direction DS smin k then
    DS / 25 * (ref_rho density origin direction DS smin k +
      ∑ m in Finset.Icc (1 : Nat) 24,
        sample density origin direction (smin + ((k : K) - 1) * DS + (m : K) * (DS / 25)))
  else
    ref_rho density origin direction DS smin k * DS

/-- Reference, optical depth of `N` windows: the sum of `c_k` over
`k = 1..N`. -/
def ref_depth (density : K → K → K → K) (origin direction : Vec3 K) (DS smin : K)
    (N : Nat) : K :=
  ∑ k in Finset.Icc (1 : Nat) N, ref_contribution density origin direction DS smin k

/-- Reference, density evaluations of window `k ≥ 1`: the right-edge sample,
and 24 fine samples more in a window with a crossing. -/
def ref_window_samples (density : K → K → K → K) (origin direction : Vec3 K) (DS smin : K)
    (k : Nat) : Nat :=
  if ref_crossing density origin direction DS smin k then 25 else 1

/-- Reference, `1` for a window `k ≥ 1` with a crossing and `0` otherwise. -/
def ref_window_refined (density : K → K → K → K) (origin direction : Vec3 K) (DS smin : K)
    (k : Nat) : Nat :=
  if ref_crossing density origin direction DS smin k then 1 else 0

/-- Reference, the variables at the head of the outer loop once `k` windows
are done: `left = smin + k*DS`, `right = left + DS`, `prev_rho = rho_k`. -/
def ref_state (density : K → K → K → K) (origin direction : Vec3 K) (DS smin : K)
    (k : Nat) (T : K) (w s r : Nat) : HState K :=
  { right := smin + ((k : K) + 1) * DS, left := smin + (k : K) * DS,
    prev_rho := ref_rho density origin direction DS smin k, T := T,
    windows := w, samples := s, refined := r }

/-- Reference, number of windows: `N = floor((smax - smin) / DS)`, which is
`0` when the quotient is negative. -/
def ref_windows [FloorSemiring K] (DS smin smax : K) : Nat :=
  ⌊(smax - smin) / DS⌋₊

/-- Reference result of the hierarchical integrator: `exp(-T)` with `T` the
sum of the window contributions along the normalized direction. -/
def hierarchical_reference [FloorSemiring K] (exp : K → K) (normalize : Vec3 K → Vec3 K)
    (density : K → K → K → K) (origin direction : Vec3 K) (DS smin smax : K) : K :=
  exp (-(ref_depth density origin (normalize direction) DS smin
    (ref_windows DS smin smax)))

/-! ### Pixel tasks -/

/-- The pixel grid `[res][res]float64`, indexed by row and column; only the
cells with both indices below `res` exist in the source. -/
def Grid (K : Type) : Type := Nat → Nat → K

/-- The function `computePixel`: `img[i][j] = integrate_hierarchical(..)`.
An index outside the array is a run-time failure, `none`. -/
def computePixel (exp : K → K) (normalize : Vec3 K → Vec3 K) (density : K → K → K → K)
    (img : Grid K) (i j : Nat) (origin direction : Vec3 K) (ds smin smax : K)
    (fuel : Nat) : Option (Grid K) :=
  if i < res ∧ j < res then
    (integrate_hierarchical exp normalize density origin direction ds smin smax fuel).map
      fun v => fun a b => if a = i ∧ b = j then v else img a b
  else none

/-- The arguments of one `go computePixel(&img, i, j, origin, vx.Sub(origin), ..)`. -/
structure PixelTask (K : Type) where
  i : Nat
  j : Nat
  direction : Vec3 K

/-- The direction handed to the task of pixel `(i, j)`:
`vx := {i/(res/2) - 1, j/(res/2) - 1, -f}`, transformed by the camera matrix
(`camera` stands for `mgl64.TransformCoordinate(·, camera)`), minus `origin`. -/
def pixel_direction (camera : Vec3 K → Vec3 K) (f : K) (origin : Vec3 K) (i j : Nat) :
    Vec3 K :=
  (camera ⟨(i : K) / ((res / 2 : Nat) : K) - 1, (j : K) / ((res / 2 : Nat) : K) - 1, -f⟩).sub
    origin

/-- The dispatch loop of `main`: `for i < res { for j < res { go computePixel(..) } }`,
as the list of issued tasks in issue order. -/
def dispatch (camera : Vec3 K → Vec3 K) (f : K) (origin : Vec3 K) : List (PixelTask K) :=
  (List.range res).flatMap fun i =>
    (List.range res).map fun j => ⟨i, j, pixel_direction camera f origin i j⟩

/-- One task run to completion: `computePixel` with the constants of `main`,
step `0.01` and interval `[R - 1, R + 1]`. -/
def run_task (exp : K → K) (normalize : Vec3 K → Vec3 K) (density : K → K → K → K)
    (origin : Vec3 K) (fuel : Nat) (img : Grid K) (t : PixelTask K) : Option (Grid K) :=
  computePixel exp normalize density img t.i t.j origin t.direction (1 / 100) (R - 1) (R + 1)
    fuel

/-- The tasks run one after the other in the order `order`; the goroutines
of the source may complete in any order. -/
def run_tasks (exp : K → K) (normalize : Vec3 K → Vec3 K) (density : K → K → K → K)
    (origin : Vec3 K) (fuel : Nat) (order : List (PixelTask K)) (img : Grid K) :
    Option (Grid K) :=
  order.foldlM (run_task exp normalize density origin fuel) img

/-- The grid after `main` has zeroed it: `img[i][j] = 0`. -/
def zero_img : Grid K := fun _ _ => 0

end Integrators

/-! ## The uniform integrator -/

section AlongRay

variable {K : Type} [LinearOrderedField K]

end AlongRay

/-! ## The hierarchical integrator -/

section Hierarchical

variable {K : Type} [LinearOrderedField K]

/-- The inner loop in closed form: entered `j` fine steps after the left
edge `L` of a window of width `DS`, it takes the `25 - j` samples up to the
right edge and stops there. -/
theorem fine_loop_closed (density : K → K → K → K) (origin direction : Vec3 K)
    (DS L : K) (hDS : 0 < DS) :
    ∀ (n j : Nat), j + n = 25 → ∀ (fuel : Nat), n ≤ fuel →
      ∀ (prev T : K) (w s r : Nat),
        fine_loop density origin direction (DS / 25) fuel
          ⟨L + DS, L + (j : K) * (DS / 25), prev, T, w, s, r⟩ =
        some ⟨L + DS, L + 25 * (DS / 25), prev,
          T + ∑ i in Finset.range n,
            sample density origin direction (L + ((j + i : Nat) : K) * (DS / 25)) * (DS / 25),
          w, s + n, r⟩ := by
  intro n
  induction n with
  | zero =>
    intro j hj fuel _ prev T w s r
    have hj25 : j = 25 := by omega
    subst hj25
    have hns : ¬ (L + (25 : K) * (DS / 25) < L + DS) := by
      have : L + (25 : K) * (DS / 25) = L + DS := by ring
      rw [this]; exact lt_irrefl _
    cases fuel <;>
      simp only [fine_loop, Nat.cast_ofNat, hns, if_false, Finset.sum_range_zero, add_zero]
  | succ n ih =>
    intro j hj fuel hfuel prev T w s r
    obtain ⟨fuel, rfl⟩ : ∃ m, fuel = m + 1 := ⟨fuel - 1, by omega⟩
    have hjlt : (j : K) < 25 := by
      have : j < 25 := by omega
      exact_mod_cast this
    have hlt : L + (j : K) * (DS / 25) < L + DS := by
      have h25 : (0 : K) < DS / 25 := by positivity
      have : (j : K) * (DS / 25) < 25 * (DS / 25) := mul_lt_mul_of_pos_right hjlt h25
      have h2 : (25 : K) * (DS / 25) = DS := by ring
      linarith
    have hnext : L + (j : K) * (DS / 25) + DS / 25 = L + ((j + 1 : Nat) : K) * (DS / 25) := by
      push_cast; ring
    simp only [fine_loop, hlt, if_true, hnext]
    rw [ih (j + 1) (by omega) fuel (by omega)]
    simp only [Option.some.injEq, HState.mk.injEq, true_and, and_true]
    refine ⟨?_, by omega⟩
    rw [Finset.sum_range_succ']
    have : ∀ i : Nat, j + 1 + i = j + (i + 1) := fun i => by omega
    simp only [this, Nat.add_zero]
    ring

/-- The boundary-crossing test `(rho == 0) != (prev_rho == 0)` as a
proposition. -/
theorem crossing_test_iff (a b : K) :
    ((a == 0) != (b == 0)) = true ↔ ¬ (a = 0 ↔ b = 0) := by
  by_cases ha : a = 0 <;> by_cases hb : b = 0 <;> simp [ha, hb]

/-- A sum over `1..n` as a sum over `range n`. -/
theorem sum_Icc_one_eq_range {M : Type} [AddCommMonoid M] (f : Nat → M) (n : Nat) :
    ∑ k in Finset.Icc 1 n, f k = ∑ i in Finset.range n, f (i + 1) := by
  rw [← Nat.Ico_succ_right, Finset.sum_Ico_eq_sum_range]
  simp [add_comm]

/-- One window of the outer loop in closed form: window `k + 1` adds the
reference contribution `c_(k+1)` to the optical depth. -/
theorem window_step_closed (density : K → K → K → K) (origin direction : Vec3 K)
    (DS smin : K) (hDS : 0 < DS) (fine : Nat) (hfine : 24 ≤ fine)
    (k : Nat) (T : K) (w s r : Nat) :
    window_step density origin direction DS (DS / 25) fine
        (ref_state density origin direction DS smin k T w s r) =
      some (ref_state density origin direction DS smin (k + 1)
        (T + ref_contribution density origin direction DS smin (k + 1)) (w + 1)
        (s + ref_window_samples density origin direction DS smin (k + 1))
        (r + ref_window_refined density origin direction DS smin (k + 1))) := by
  have hrho : sample density origin direction (smin + ((k : K) + 1) * DS) =
      ref_rho density origin direction DS smin (k + 1) := by
    simp [ref_rho]
  have hcross : ((ref_rho density origin direction DS smin (k + 1) == 0) !=
      (ref_rho density origin direction DS smin k == 0)) = true ↔
      ref_crossing density origin direction DS smin (k + 1) := by
    rw [crossing_test_iff]; simp [ref_crossing]
  have hright : smin + ((k : K) + 1) * DS + DS = smin + (((k + 1 : Nat) : K) + 1) * DS := by
    push_cast; ring
  have hleft : smin + ((k : K) + 1) * DS = smin + ((k + 1 : Nat) : K) * DS := by
    push_cast; ring
  by_cases hc : ref_crossing density origin direction DS smin (k + 1)
  · have hfine_state : (⟨smin + ((k : K) + 1) * DS, smin + (k : K) * DS + DS / 25,
          ref_rho density origin direction DS smin k, T, w, s + 1, r⟩ : HState K) =
        ⟨(smin + (k : K) * DS) + DS, (smin + (k : K) * DS) + ((1 : Nat) : K) * (DS / 25),
          ref_rho density origin direction DS smin k, T, w, s + 1, r⟩ := by
      simp only [HState.mk.injEq, and_true, true_and]
      constructor
      · ring
      · push_cast; ring
    simp only [window_step, ref_state, hrho, hcross.mpr hc, if_true, hfine_state]
    rw [fine_loop_closed density origin direction DS (smin + (k : K) * DS) hDS 24 1 rfl fine
      hfine]
    simp only [Option.map_some', Option.some.injEq, HState.mk.injEq, true_and, and_true]
    refine ⟨by push_cast; ring, by push_cast; ring, ?_, ?_, ?_⟩
    · have hsum : ∑ i in Finset.range 24,
          sample density origin direction
            (smin + (k : K) * DS + ((1 + i : Nat) : K) * (DS / 25)) * (DS / 25) =
          ∑ i in Finset.range 24, DS / 25 *
            sample density origin direction
              (smin + (((k + 1 : Nat) : K) - 1) * DS + ((i + 1 : Nat) : K) * (DS / 25)) := by
        apply Finset.sum_congr rfl
        intro i _
        have : smin + (((k + 1 : Nat) : K) - 1) * DS + ((i + 1 : Nat) : K) * (DS / 25) =
            smin + (k : K) * DS + ((1 + i : Nat) : K) * (DS / 25) := by
          push_cast; ring
        rw [this]; ring
      simp only [ref_contribution, hc, if_true, sum_Icc_one_eq_range, Finset.mul_sum, mul_add,
        hsum]
      ring
    · simp only [ref_window_samples, hc, if_true]
    · simp only [ref_window_refined, hc, if_true]
  · have hfalse : ¬ (((ref_rho density origin direction DS smin (k + 1) == 0) !=
        (ref_rho density origin direction DS smin k == 0)) = true) := fun h => hc (hcross.mp h)
    simp only [window_step, ref_state, hrho, hfalse, Bool.false_eq_true, if_false,
      Option.map_some', Option.some.injEq, HState.mk.injEq, true_and, and_true]
    refine ⟨by push_cast; ring, by push_cast; ring, ?_, ?_, ?_⟩
    · simp only [ref_contribution, hc, if_false]
    · simp only [ref_window_samples, hc, if_false]
    · simp only [ref_window_refined, hc, if_false, Nat.add_zero]

/-- The outer loop in closed form: from the head of the loop after `k`
windows, with `m` windows left before `right` passes `smax`, it runs exactly
`m` more windows and adds their reference contributions. -/
theorem hier_loop_closed (density : K → K → K → K) (origin direction : Vec3 K)
    (DS smin smax : K) (hDS : 0 < DS) (N : Nat)
    (hN : ∀ k : Nat, smin + ((k : K) + 1) * DS ≤ smax ↔ k < N)
    (fine : Nat) (hfine : 24 ≤ fine) :
    ∀ (m k : Nat), k + m = N → ∀ (fuel : Nat), m ≤ fuel → ∀ (T : K) (w s r : Nat),
      hier_loop density origin direction DS (DS / 25) smax fine fuel
          (ref_state density origin direction DS smin k T w s r) =
        some (ref_state density origin direction DS smin N
          (T + ∑ i in Finset.range m,
            ref_contribution density origin direction DS smin (k + i + 1))
          (w + m)
          (s + ∑ i in Finset.range m,
            ref_window_samples density origin direction DS smin (k + i + 1))
          (r + ∑ i in Finset.range m,
            ref_window_refined density origin direction DS smin (k + i + 1))) := by
  intro m
  induction m with
  | zero =>
    intro k hk fuel _ T w s r
    have hkN : k = N := by omega
    subst hkN
    have hstop : ¬ (ref_state density origin direction DS smin k T w s r).right ≤ smax := by
      simp only [ref_state]
      exact fun h => Nat.lt_irrefl k ((hN k).mp h)
    cases fuel <;>
      simp only [hier_loop, hstop, if_false, Finset.sum_range_zero, add_zero, Nat.add_zero]
  | succ m ih =>
    intro k hk fuel hfuel T w s r
    obtain ⟨fuel, rfl⟩ : ∃ n, fuel = n + 1 := ⟨fuel - 1, by omega⟩
    have hgo : (ref_state density origin direction DS smin k T w s r).right ≤ smax := by
      simp only [ref_state]
      exact (hN k).mpr (by omega)
    simp only [hier_loop, hgo, if_true]
    rw [window_step_closed density origin direction DS smin hDS fine hfine, Option.some_bind,
      ih (k + 1) (by omega) fuel (by omega)]
    simp only [Option.some.injEq]
    have hidx : ∀ i : Nat, k + 1 + i + 1 = k + (i + 1) + 1 := fun i => by omega
    simp only [Finset.sum_range_succ', hidx, Nat.add_zero]
    congr 1
    · ring
    · omega
    · omega
    · omega

/-- The number of windows `floor((smax - smin) / DS)` is the number of right
edges `smin + (k+1)*DS` that do not pass `smax`. -/
theorem ref_windows_spec [FloorSemiring K] (DS smin smax : K) (hDS : 0 < DS) (k : Nat) :
    smin + ((k : K) + 1) * DS ≤ smax ↔ k < ref_windows DS smin smax := by
  unfold ref_windows
  rw [Nat.lt_iff_add_one_le, Nat.le_floor_iff' (Nat.succ_ne_zero k), le_div_iff₀ hDS]
  push_cast
  constructor <;> intro h <;> linarith

/-- The entry state of `integrate_hierarchical` is the reference state with
no window done. -/
theorem hier_init_eq (density : K → K → K → K) (origin direction : Vec3 K) (DS smin : K) :
    hier_init DS smin = ref_state density origin direction DS smin 0 0 0 0 0 := by
  simp [hier_init, ref_state, ref_rho]

/-- The final state of `integrate_hierarchical` in closed form, for a
positive coarse step and fuel for `N` windows and 24 fine steps. -/
theorem hier_run_closed [FloorSemiring K] (normalize : Vec3 K → Vec3 K)
    (density : K → K → K → K) (origin direction : Vec3 K) (DS smin smax : K)
    (hDS : 0 < DS) (fuel : Nat) (hfuel : max (ref_windows DS smin smax) 24 ≤ fuel) :
    hier_run normalize density origin direction DS smin smax fuel =
      some (ref_state density origin (normalize direction) DS smin (ref_windows DS smin smax)
        (ref_depth density origin (normalize direction) DS smin (ref_windows DS smin smax))
        (ref_windows DS smin smax)
        (∑ k in Finset.Icc 1 (ref_windows DS smin smax),
          ref_window_samples density origin (normalize direction) DS smin k)
        (∑ k in Finset.Icc 1 (ref_windows DS smin smax),
          ref_window_refined density origin (normalize direction) DS smin k)) := by
  have h := hier_loop_closed density origin (normalize direction) DS smin smax hDS
    (ref_windows DS smin smax) (ref_windows_spec DS smin smax hDS) fuel
    (le_trans (le_max_right _ _) hfuel) (ref_windows DS smin smax) 0 (Nat.zero_add _) fuel
    (le_trans (le_max_left _ _) hfuel) 0 0 0 0
  simp only [Nat.zero_add, zero_add] at h
  simp only [hier_run, hier_init_eq density origin (normalize direction), h, ref_depth,
    sum_Icc_one_eq_range]

/-- With a positive coarse step and enough fuel `integrate_hierarchical`
returns the reference value. -/
theorem integrate_hierarchical_closed [FloorSemiring K] (exp : K → K)
    (normalize : Vec3 K → Vec3 K) (density : K → K → K → K) (origin direction : Vec3 K)
    (DS smin smax : K) (hDS : 0 < DS) (fuel : Nat)
    (hfuel : max (ref_windows DS smin smax) 24 ≤ fuel) :
    integrate_hierarchical exp normalize density origin direction DS smin smax fuel =
      some (hierarchical_reference exp normalize density origin direction DS smin smax) := by
  simp only [integrate_hierarchical,
    hier_run_closed normalize density origin direction DS smin smax hDS fuel hfuel,
    Option.map_some', ref_state, hierarchical_reference]

end Hierarchical

/-! ## The claims, over the reals with `Real.exp` -/

section Claims

end Claims

/-! ## Pixel tasks and the dispatch loop -/

section Pixels

variable {K : Type} [LinearOrderedField K]

/-- The frame of `computePixel`: it succeeds only inside the array, leaves
every other cell unchanged and stores the integrator's result in its own. -/
theorem computePixel_frame (exp : K → K) (normalize : Vec3 K → Vec3 K)
    (density : K → K → K → K) (img img' : Grid K) (i j : Nat) (origin direction : Vec3 K)
    (ds smin smax : K) (fuel : Nat)
    (h : computePixel exp normalize density img i j origin direction ds smin smax fuel =
      some img') :
    (i < res ∧ j < res) ∧
    (∀ a b, (a, b) ≠ (i, j) → img' a b = img a b) ∧
    integrate_hierarchical exp normalize density origin direction ds smin smax fuel =
      some (img' i j) := by
  unfold computePixel at h
  split_ifs at h with hin
  cases hv : integrate_hierarchical exp normalize density origin direction ds smin smax fuel with
  | none => simp [hv] at h
  | some v =>
    simp only [hv, Option.map_some', Option.some.injEq] at h
    subst h
    refine ⟨hin, ?_, by simp⟩
    intro a b hab
    have : ¬ (a = i ∧ b = j) := fun hh => hab (by rw [hh.1, hh.2])
    simp [this]

/-- Inside the array `computePixel` succeeds when its integrator does. -/
theorem computePixel_some (exp : K → K) (normalize : Vec3 K → Vec3 K)
    (density : K → K → K → K) (img : Grid K) (i j : Nat) (origin direction : Vec3 K)
    (ds smin smax v : K) (fuel : Nat) (hi : i < res) (hj : j < res)
    (hv : integrate_hierarchical exp normalize density origin direction ds smin smax fuel =
      some v) :
    computePixel exp normalize density img i j origin direction ds smin smax fuel =
      some (fun a b => if a = i ∧ b = j then v else img a b) := by
  simp [computePixel, hi, hj, hv]

/-- The cells targeted by the dispatch loop, in issue order: the product of
the row indices with the column indices. -/
theorem dispatch_cells (camera : Vec3 K → Vec3 K) (f : K) (origin : Vec3 K) :
    (dispatch camera f origin).map (fun t => (t.i, t.j)) =
      List.product (List.range res) (List.range res) := by
  simp only [dispatch, List.map_flatMap, List.map_map, List.product]
  rfl

/-- Every issued task is that of a cell of the grid and carries the
direction of its own pixel. -/
theorem dispatch_mem (camera : Vec3 K → Vec3 K) (f : K) (origin : Vec3 K)
    (t : PixelTask K) :
    t ∈ dispatch camera f origin ↔
      t.i < res ∧ t.j < res ∧ t.direction = pixel_direction camera f origin t.i t.j := by
  simp only [dispatch, List.mem_flatMap, List.mem_map, List.mem_range]
  constructor
  · rintro ⟨i, hi, j, hj, rfl⟩
    exact ⟨hi, hj, rfl⟩
  · rintro ⟨hi, hj, hd⟩
    refine ⟨t.i, hi, t.j, hj, ?_⟩
    rw [← hd]

/-- In a list whose keys are pairwise distinct, exactly one element has a
key that occurs. -/
theorem countP_key_eq_one {α β : Type} [DecidableEq β] (g : α → β) (b : β) :
    ∀ l : List α, (l.map g).Nodup → b ∈ l.map g →
      l.countP (fun a => decide (g a = b)) = 1 := by
  intro l
  induction l with
  | nil => intro _ hm; simp at hm
  | cons a l ih =>
    intro hn hm
    rw [List.map_cons, List.nodup_cons] at hn
    by_cases hab : g a = b
    · have hnone : l.countP (fun a => decide (g a = b)) = 0 := by
        rw [List.countP_eq_zero]
        intro x hx hgx
        exact hn.1 (List.mem_map.mpr ⟨x, hx, by rw [hab]; simpa using hgx⟩)
      simp [List.countP_cons, hab, hnone]
    · have hm' : b ∈ l.map g := by
        rcases List.mem_cons.mp hm with h | h
        · exact absurd h.symm hab
        · exact h
      simp [List.countP_cons, hab, ih hn.2 hm']

/-- The dispatch loop issues exactly one task per cell of the grid. -/
theorem dispatch_count (camera : Vec3 K → Vec3 K) (f : K) (origin : Vec3 K) (i j : Nat)
    (hi : i < res) (hj : j < res) :
    (dispatch camera f origin).countP (fun t => decide (t.i = i ∧ t.j = j)) = 1 := by
  have hnodup : ((dispatch camera f origin).map (fun t => (t.i, t.j))).Nodup := by
    rw [dispatch_cells]
    exact List.Nodup.product (List.nodup_range _) (List.nodup_range _)
  have hmem : (i, j) ∈ (dispatch camera f origin).map (fun t => (t.i, t.j)) := by
    rw [dispatch_cells]
    simp [hi, hj]
  rw [← countP_key_eq_one (fun t : PixelTask K => (t.i, t.j)) (i, j) _ hnodup hmem]
  apply List.countP_congr
  intro t _
  simp [Prod.ext_iff]

/-- Tasks run one after the other: when every task of `order` is inside the
array and its integrator returns `v` of its cell, the run succeeds, the cells
with a task hold `v` and the others are unchanged. -/
theorem run_tasks_spec (exp : K → K) (normalize : Vec3 K → Vec3 K)
    (density : K → K → K → K) (origin : Vec3 K) (fuel : Nat) (v : Nat → Nat → K) :
    ∀ (order : List (PixelTask K)),
      (∀ t ∈ order, t.i < res ∧ t.j < res ∧
        integrate_hierarchical exp normalize density origin t.direction (1 / 100) (R - 1)
          (R + 1) fuel = some (v t.i t.j)) →
      ∀ img : Grid K, ∃ img' : Grid K,
        run_tasks exp normalize density origin fuel order img = some img' ∧
        ∀ a b, img' a b = if (∃ t ∈ order, t.i = a ∧ t.j = b) then v a b else img a b := by
  intro order
  induction order with
  | nil =>
    intro _ img
    exact ⟨img, by simp [run_tasks], by simp⟩
  | cons t rest ih =>
    intro hall img
    obtain ⟨hi, hj, hv⟩ := hall t (List.mem_cons_self _ _)
    have hstep := computePixel_some exp normalize density img t.i t.j origin t.direction
      (1 / 100) (R - 1) (R + 1) (v t.i t.j) fuel hi hj hv
    obtain ⟨img', hrun, hcells⟩ := ih (fun u hu => hall u (List.mem_cons_of_mem _ hu))
      (fun a b => if a = t.i ∧ b = t.j then v t.i t.j else img a b)
    refine ⟨img', ?_, ?_⟩
    · simp only [run_tasks, List.foldlM_cons, run_task, hstep, Option.bind_eq_bind,
        Option.some_bind]
      exact hrun
    · intro a b
      rw [hcells a b]
      by_cases hrest : ∃ u ∈ rest, u.i = a ∧ u.j = b
      · have : ∃ u ∈ t :: rest, u.i = a ∧ u.j = b := by
          obtain ⟨u, hu, h⟩ := hrest
          exact ⟨u, List.mem_cons_of_mem _ hu, h⟩
        simp only [hrest, this, if_true]
      · by_cases ht : a = t.i ∧ b = t.j
        · have : ∃ u ∈ t :: rest, u.i = a ∧ u.j = b :=
            ⟨t, List.mem_cons_self _ _, ht.1.symm, ht.2.symm⟩
          obtain ⟨ha, hb⟩ := ht
          subst ha
          subst hb
          rw [if_neg hrest, if_pos this, if_pos ⟨rfl, rfl⟩]
        · have : ¬ ∃ u ∈ t :: rest, u.i = a ∧ u.j = b := by
            rintro ⟨u, hu, h⟩
            rcases List.mem_cons.mp hu with rfl | hu
            · exact ht ⟨h.1.symm, h.2.symm⟩
            · exact hrest ⟨u, hu, h⟩
          simp only [hrest, this, ht, if_false]

end Pixels

section Render

/-- The interval `[R - 1, R + 1]` of a pixel task holds 200 windows of width
`0.01`. -/
theorem pixel_windows : ref_windows (1 / 100 : ℝ) (R - 1) (R + 1) = 200 := by
  rw [ref_windows, Nat.floor_eq_iff (by norm_num [R])]
  norm_num [R]

/-- C7: each pixel task writes only its own cell and every cell is written
exactly once per frame. `computePixel` on a cell of the grid returns, leaves
every other cell unchanged and stores `integrate_hierarchical` of its ray in
its own cell; the dispatch loop issues exactly one task for each pair
`(i, j)` with `i, j < res`, each with the direction of its own pixel; and
after the tasks have run in any order every cell holds the integrator's
result for its own ray. -/
theorem pixel_tasks_write_own_cells (normalize : Vec3 ℝ → Vec3 ℝ)
    (density : ℝ → ℝ → ℝ → ℝ) (camera : Vec3 ℝ → Vec3 ℝ) (f : ℝ) (origin : Vec3 ℝ)
    (fuel : Nat) (hfuel : 200 ≤ fuel) :
    (∀ (img : Grid ℝ) (i j : Nat) (direction : Vec3 ℝ) (ds smin smax : ℝ),
      i < res → j < res → 0 < ds → max ⌊(smax - smin) / ds⌋₊ 24 ≤ fuel →
      ∃ img' : Grid ℝ,
        computePixel Real.exp normalize density img i j origin direction ds smin smax fuel =
          some img' ∧
        (∀ a b, (a, b) ≠ (i, j) → img' a b = img a b) ∧
        integrate_hierarchical Real.exp normalize density origin direction ds smin smax fuel =
          some (img' i j)) ∧
    (∀ i j, i < res → j < res →
      (dispatch camera f origin).countP (fun t => decide (t.i = i ∧ t.j = j)) = 1) ∧
    (∀ t ∈ dispatch camera f origin,
      t.i < res ∧ t.j < res ∧ t.direction = pixel_direction camera f origin t.i t.j) ∧
    (∀ order : List (PixelTask ℝ), order.Perm (dispatch camera f origin) →
      ∀ img : Grid ℝ, ∃ img' : Grid ℝ,
        run_tasks Real.exp normalize density origin fuel order img = some img' ∧
        ∀ i j, i < res → j < res →
          integrate_hierarchical Real.exp normalize density origin
            (pixel_direction camera f origin i j) (1 / 100) (R - 1) (R + 1) fuel =
          some (img' i j)) := by
  have hpix : ∀ direction : Vec3 ℝ,
      integrate_hierarchical Real.exp normalize density origin direction (1 / 100) (R - 1)
        (R + 1) fuel =
      some (hierarchical_reference Real.exp normalize density origin direction (1 / 100)
        (R - 1) (R + 1)) := fun direction =>
    integrate_hierarchical_closed Real.exp normalize density origin direction (1 / 100) (R - 1)
      (R + 1) (by norm_num) fuel (by rw [pixel_windows]; exact max_le hfuel (by omega))
  refine ⟨?_, ?_, ?_, ?_⟩
  · intro img i j direction ds smin smax hi hj hds hf
    have hv := integrate_hierarchical_closed Real.exp normalize density origin direction ds smin
      smax hds fuel hf
    have hstep := computePixel_some Real.exp normalize density img i j origin direction ds smin
      smax _ fuel hi hj hv
    exact ⟨_, hstep,
      (computePixel_frame Real.exp normalize density img _ i j origin direction ds smin smax
        fuel hstep).2⟩
  · exact fun i j hi hj => dispatch_count camera f origin i j hi hj
  · exact fun t ht => (dispatch_mem camera f origin t).mp ht
  · intro order hperm img
    obtain ⟨img', hrun, hcells⟩ := run_tasks_spec Real.exp normalize density origin fuel
      (fun i j => hierarchical_reference Real.exp normalize density origin
        (pixel_direction camera f origin i j) (1 / 100) (R - 1) (R + 1))
      order
      (fun t ht => by
        obtain ⟨hi, hj, hd⟩ := (dispatch_mem camera f origin t).mp (hperm.mem_iff.mp ht)
        refine ⟨hi, hj, ?_⟩
        rw [hpix, hd])
      img
    refine ⟨img', hrun, ?_⟩
    intro i j hi hj
    have hex : ∃ t ∈ order, t.i = i ∧ t.j = j :=
      ⟨⟨i, j, pixel_direction camera f origin i j⟩,
        hperm.mem_iff.mpr ((dispatch_mem camera f origin _).mpr ⟨hi, hj, rfl⟩), rfl, rfl⟩
    rw [hcells i j, if_pos hex, hpix]

/-- Witness of C7: the tasks of a frame run in reverse issue order on the
zeroed grid, observed at the cell `(3, 5)`. -/
theorem pixel_tasks_write_own_cells_witness :
    ∃ img' : Grid ℝ,
      run_tasks Real.exp id (fun x y z => if x * x + y * y + z * z < 1 then (1 : ℝ) else 0)
        ⟨6, 0, 0⟩ 200 (dispatch id 1 ⟨6, 0, 0⟩).reverse zero_img = some img' ∧
      integrate_hierarchical Real.exp id
        (fun x y z => if x * x + y * y + z * z < 1 then (1 : ℝ) else 0) ⟨6, 0, 0⟩
        (pixel_direction id 1 ⟨6, 0, 0⟩ 3 5) (1 / 100) (R - 1) (R + 1) 200 = some (img' 3 5) := by
  obtain ⟨img', hrun, hcells⟩ := (pixel_tasks_write_own_cells id
    (fun x y z => if x * x + y * y + z * z < 1 then (1 : ℝ) else 0) id 1 ⟨6, 0, 0⟩ 200
    (le_refl 200)).2.2.2 (dispatch id 1 ⟨6, 0, 0⟩).reverse (List.reverse_perm _) zero_img
  exact ⟨img', hrun, hcells 3 5 (by decide) (by decide)⟩

end Render

end SphereRender
